import Mathlib

/-!
Verification of the producer/consumer demo program in `main.go` of the
gofums repository.

The program starts a producer goroutine `emit` that cycles through the
fixed word list `["feed", "the", "monkey"]`, offering the current word on
an unbuffered channel `wordChannel` while simultaneously (via `select`)
being willing to receive a stop signal on `doneChannel`.  The entry point
`main` receives and prints 101 words (loop `for i := 0; i <= 100`), then
sends `true` on `doneChannel`; the producer thereupon closes
`doneChannel` and returns.

We embed the two goroutines as a small-step transition system over a
global state recording the producer's control point and cycle index, the
consumer's control point and receive count, whether `doneChannel` has
been closed, and the list of lines printed so far.  Communication on an
unbuffered Go channel is a synchronous rendezvous, so each communication
is one joint transition touching both control points.  The relation
`Step` gives the semantics; the function `stepFn` is its executable
(deterministic) counterpart, and `Step` is proved equivalent to it.
-/

namespace Gofums

set_option maxRecDepth 4000

/-- The fixed word cycle `words := []string{"feed", "the", "monkey"}` of `emit`. -/
def words : List String := ["feed", "the", "monkey"]

/-- Control state of the producer goroutine `emit`.
`running i` means `emit` is at the top of its `for` loop with cycle index `i`;
`closing` means the `doneChannel` receive case was just taken and
`close(doneChannel)` is about to execute; `stopped` means `emit` returned. -/
inductive ProdState
  | running (i : Nat)
  | closing
  | stopped
deriving DecidableEq

/-- Control state of the consumer (the body of `main` after `go emit ...`).
`receiving k` means the `for` loop has completed `k` receive-and-print
iterations and is about to test its condition `i <= 100`;
`sendingDone` means the loop exited and `doneChannel <- true` is pending;
`finished` means `main` returned. -/
inductive ConsState
  | receiving (k : Nat)
  | sendingDone
  | finished
deriving DecidableEq

/-- Global state of the program: both control points, whether
`doneChannel` has been closed, and the lines printed to the console. -/
structure State where
  prod : ProdState
  cons : ConsState
  doneClosed : Bool
  output : List String
deriving DecidableEq

/-- Index update of `emit` after a successful send:
`i++; if i == len(words) { i = 0 }`. -/
def nextIndex (i : Nat) : Nat :=
  if i + 1 = words.length then 0 else i + 1

/-- Consumer control point after one more receive: the loop runs again
while the counter is at most 100, so the 101st receive (counter 100)
leaves the loop and proceeds to the `doneChannel <- true` send. -/
def consAfterRecv (k : Nat) : ConsState :=
  if k = 100 then ConsState.sendingDone else ConsState.receiving (k + 1)

/-- Small-step semantics of the two goroutines.  Sends and receives on
the unbuffered channels are synchronous rendezvous, so each
communication is a single joint step:
* `word`: `emit`'s `select` takes `wordChannel <- words[i]` jointly with
  the consumer's `<-wordChannel`; the word is printed, the cycle index
  advances, the receive counter advances.
* `done`: `emit`'s `select` takes `<-doneChannel` jointly with the
  consumer's `doneChannel <- true`; `main` returns, `emit` proceeds to
  `close(doneChannel)`.
* `close`: `emit` executes `close(doneChannel)` and returns. -/
inductive Step : State → State → Prop
  | word (i k : Nat) (dc : Bool) (out : List String) (w : String)
      (hk : k ≤ 100) (hw : words[i]? = some w) :
      Step ⟨.running i, .receiving k, dc, out⟩
        ⟨.running (nextIndex i), consAfterRecv k, dc, out ++ [w]⟩
  | done (i : Nat) (dc : Bool) (out : List String) :
      Step ⟨.running i, .sendingDone, dc, out⟩ ⟨.closing, .finished, dc, out⟩
  | close (c : ConsState) (dc : Bool) (out : List String) :
      Step ⟨.closing, c, dc, out⟩ ⟨.stopped, c, true, out⟩

set_option linter.unusedVariables false in
/-- Executable one-step function, parametrised by the boolean value `v`
the consumer sends on `doneChannel` (the source sends `true`).  The
producer's case `<-doneChannel:` binds no variable, so `v` influences
nothing. -/
def stepFnV (v : Bool) : State → Option State
  | ⟨.running i, .receiving k, dc, out⟩ =>
      if k ≤ 100 then
        words[i]?.map fun w =>
          ⟨.running (nextIndex i), consAfterRecv k, dc, out ++ [w]⟩
      else none
  | ⟨.running _, .sendingDone, dc, out⟩ => some ⟨.closing, .finished, dc, out⟩
  | ⟨.closing, c, _, out⟩ => some ⟨.stopped, c, true, out⟩
  | _ => none

/-- The one-step function with the value actually sent by `main`. -/
def stepFn : State → Option State := stepFnV true

/-- Initial state: `emit` entering its loop with index 0, `main`
entering its loop with counter 0, `doneChannel` open, nothing printed. -/
def init : State := ⟨.running 0, .receiving 0, false, []⟩

/-- The (unique) execution of the program: iterate `stepFn` from `init`,
staying put once no step is possible. -/
def run : Nat → State
  | 0 => init
  | n + 1 => (stepFn (run n)).getD (run n)

/-- The console output the spec predicts: the word cycle repeated and
truncated to 101 elements. -/
def expectedOutput : List String := ((List.replicate 34 words).flatten).take 101

/-- The final state of the program: both goroutines finished,
`doneChannel` closed, 101 lines printed. -/
def halt : State := ⟨.stopped, .finished, true, expectedOutput⟩

/-- States reachable from `init` under the step relation: exactly the
states some scheduling of the program can be in. -/
inductive Reachable : State → Prop
  | init : Reachable init
  | step {s s' : State} : Reachable s → Step s s' → Reachable s'

/-- The step relation agrees with the executable step function. -/
theorem step_iff (s s' : State) : Step s s' ↔ stepFn s = some s' := by
  constructor
  · intro h
    cases h with
    | word i k dc out w hk hw =>
        simp [stepFn, stepFnV, hk, hw]
    | done i dc out => rfl
    | close c dc out => rfl
  · intro h
    obtain ⟨p, c, dc, out⟩ := s
    cases p with
    | running i =>
        cases c with
        | receiving k =>
            by_cases hk : k ≤ 100
            · simp [stepFn, stepFnV, hk] at h
              cases hw : words[i]? with
              | none => rw [hw] at h; simp at h
              | some w =>
                  rw [hw] at h
                  simp at h
                  subst h
                  exact Step.word i k dc out w hk hw
            · simp [stepFn, stepFnV, hk] at h
        | sendingDone =>
            simp [stepFn, stepFnV] at h
            subst h
            exact Step.done i dc out
        | finished => simp [stepFn, stepFnV] at h
    | closing =>
        simp [stepFn, stepFnV] at h
        subst h
        exact Step.close c dc out
    | stopped => simp [stepFn, stepFnV] at h

/-- Every state of the execution trace is reachable. -/
theorem run_reachable (n : Nat) : Reachable (run n) := by
  induction n with
  | zero => exact Reachable.init
  | succ n ih =>
      cases h : stepFn (run n) with
      | none => simpa [run, h] using ih
      | some s' =>
          have : run (n + 1) = s' := by simp [run, h]
          rw [this]
          exact Reachable.step ih ((step_iff _ _).mpr h)

/-- The execution halts: step 103 reaches the final state. -/
theorem run_halts : run 103 = halt ∧ stepFn halt = none := by
  constructor
  · decide
  · decide

/-- Every reachable state lies on the execution trace within 103 steps. -/
theorem reachable_run (s : State) (h : Reachable s) :
    ∃ n, n ≤ 103 ∧ run n = s := by
  induction h with
  | init => exact ⟨0, by omega, rfl⟩
  | @step t t' _ hstep ih =>
      obtain ⟨n, hn, rfl⟩ := ih
      have hfn : stepFn (run n) = some t' := (step_iff _ _).mp hstep
      have hne : n ≠ 103 := by
        intro h103
        rw [h103, run_halts.1, run_halts.2] at hfn
        exact Option.noConfusion hfn
      refine ⟨n + 1, by omega, ?_⟩
      simp [run, hfn]

/-- Reduce a property of all reachable states to a check over the
finitely many trace states. -/
theorem reachable_elim {P : State → Prop} (hP : ∀ n, n < 104 → P (run n)) :
    ∀ s, Reachable s → P s := by
  intro s hs
  obtain ⟨n, hn, rfl⟩ := reachable_run s hs
  exact hP n (by omega)

/-- Iterate `stepFn` from an arbitrary state. -/
def runFrom (s : State) : Nat → State
  | 0 => s
  | n + 1 => (stepFn (runFrom s n)).getD (runFrom s n)

/-- Continuing the trace from its `n`-th state for `m` more steps lands
at its `(n + m)`-th state. -/
theorem runFrom_run (n m : Nat) : runFrom (run n) m = run (n + m) := by
  induction m with
  | zero => rfl
  | succ m ih => simp [runFrom, run, ih]

/-- Reduce a property of all reachable transitions to a check over the
finitely many trace transitions. -/
theorem reachable_step_elim {Q : State → State → Prop}
    (hQ : ∀ n, n < 104 → Q (run n) ((stepFn (run n)).getD (run n))) :
    ∀ s s', Reachable s → Step s s' → Q s s' := by
  intro s s' hs h
  obtain ⟨n, hn, rfl⟩ := reachable_run s hs
  have hfn := (step_iff _ _).mp h
  have := hQ n (by omega)
  rwa [hfn, Option.getD_some] at this

/-- A reachable state from which no step is possible is the final state. -/
theorem terminal_is_halt (s : State) (hs : Reachable s)
    (hterm : stepFn s = none) : s = halt := by
  have key : ∀ n, n < 104 → stepFn (run n) = none → run n = halt := by decide
  obtain ⟨n, hn, rfl⟩ := reachable_run s hs
  exact key n (by omega) hterm

/-- The producer's cycle index, when the producer is at its loop head. -/
def prodIndex (s : State) : Option Nat :=
  match s.prod with
  | .running i => some i
  | _ => none

/-- In every reachable state the producer's cycle index is a valid index
into `words`. -/
theorem reachable_index_bound (s : State) (hs : Reachable s) (i : Nat)
    (hp : s.prod = ProdState.running i) : i < words.length := by
  have key : ∀ n, n < 104 → (prodIndex (run n)).getD 0 < words.length := by
    decide
  obtain ⟨n, hn, rfl⟩ := reachable_run s hs
  have := key n (by omega)
  simpa [prodIndex, hp] using this

/-- The index update after a send is increment modulo the cycle length. -/
theorem nextIndex_mod (i : Nat) (hi : i < words.length) :
    nextIndex i = (i + 1) % words.length := by
  have h3 : words.length = 3 := rfl
  rw [h3] at hi ⊢
  interval_cases i <;> decide

/-- Two transitions from the same state agree: the system is
deterministic (the producer's select never has both partners ready,
because the single consumer is sequential). -/
theorem step_deterministic (s t u : State) (ht : Step s t) (hu : Step s u) :
    t = u := by
  rw [step_iff] at ht hu
  rw [ht] at hu
  exact Option.some.injEq _ _ ▸ hu ▸ rfl

/-- Claim C1: for the fixed three-word cycle and a fixed receive count of
101, the sequence of words received (and printed) by the consumer in any
completed execution is exactly the cycle repeated and truncated to 101
elements, and for every k < 101 the k-th word is words[k mod 3]. -/
theorem c1_output_is_truncated_cycle (s : State) (hs : Reachable s)
    (hterm : stepFn s = none) :
    s.output = expectedOutput ∧
      ∀ k, k < 101 → s.output[k]? = words[k % 3]? := by
  have hhalt := terminal_is_halt s hs hterm
  subst hhalt
  refine ⟨rfl, ?_⟩
  decide

/-- Claim C1 witness: the completed run satisfies the hypotheses, and its
7th printed word is words[7 mod 3] = "the". -/
theorem c1_witness : (run 103).output[7]? = words[7 % 3]? :=
  (c1_output_is_truncated_cycle (run 103) (run_reachable 103)
    (by decide)).2 7 (by omega)

/-- Claim C2: the program always terminates under every scheduling: from
every reachable state the execution completes to the final state within
103 steps, the final state (both routines finished, stop delivered and
channel closed) takes no further step, every reachable state other than
the final one has a successor (no execution blocks forever), and every
reachable stuck state is the final state. -/
theorem c2_always_terminates :
    (∀ s, Reachable s → ∃ n, n ≤ 103 ∧ runFrom s n = halt) ∧
    stepFn halt = none ∧
    (∀ s, Reachable s → s = halt ∨ ∃ s', Step s s') ∧
    (∀ s, Reachable s → stepFn s = none → s = halt) := by
  refine ⟨?_, run_halts.2, ?_, terminal_is_halt⟩
  · intro s hs
    obtain ⟨n, hn, rfl⟩ := reachable_run s hs
    refine ⟨103 - n, by omega, ?_⟩
    rw [runFrom_run]
    have : n + (103 - n) = 103 := by omega
    rw [this, run_halts.1]
  · intro s hs
    cases h : stepFn s with
    | none => exact Or.inl (terminal_is_halt s hs h)
    | some s' => exact Or.inr ⟨s', (step_iff _ _).mpr h⟩

/-- Claim C2 witness: from the initial state the program completes. -/
theorem c2_witness : ∃ n, n ≤ 103 ∧ runFrom init n = halt :=
  c2_always_terminates.1 init Reachable.init

/-- Claim C3: upon receiving the stop signal (the producer control point
is `closing`, entered only by the done branch of the select), the next
step closes the done channel and returns from `emit`: the producer
becomes `stopped`, `doneClosed` becomes true, no word is sent (the
output is unchanged), and no step at all is possible afterwards. -/
theorem c3_producer_closes_and_returns (s s' : State) (h : Step s s')
    (hc : s.prod = ProdState.closing) :
    s'.prod = ProdState.stopped ∧ s'.doneClosed = true ∧
      s'.output = s.output ∧ ∀ t, ¬ Step s' t := by
  cases h with
  | word i k dc out w hk hw => exact ProdState.noConfusion hc
  | done i dc out => exact ProdState.noConfusion hc
  | close c dc out =>
      refine ⟨rfl, rfl, rfl, ?_⟩
      intro t ht
      rw [step_iff] at ht
      simp [stepFn, stepFnV] at ht

/-- Claim C3 witness: the step from trace state 102 (producer `closing`)
to trace state 103 stops the producer. -/
theorem c3_witness : (run 103).prod = ProdState.stopped :=
  (c3_producer_closes_and_returns (run 102) (run 103)
    ((step_iff _ _).mpr (by decide)) (by decide)).1

/-- Claim C4: the consumer performs a fixed number of receives (101, one
printed line each) and only after completing all of them sends the stop
signal: any transition taken while the consumer is at its stop-send
(the done rendezvous) happens with exactly 101 lines already printed and
finishes the consumer; once finished, the consumer stays finished and
nothing more is printed, so no second stop signal is ever sent; and the
stop rendezvous does occur, namely as trace step 101 → 102. -/
theorem c4_stop_once_after_101_receives :
    (∀ s s', Reachable s → Step s s' → s.cons = ConsState.sendingDone →
       s.output.length = 101 ∧ s'.cons = ConsState.finished) ∧
    (∀ s s', Reachable s → Step s s' → s.cons = ConsState.finished →
       s'.cons = ConsState.finished ∧ s'.output = s.output) ∧
    (run 101).cons = ConsState.sendingDone ∧ Step (run 101) (run 102) ∧
      (run 102).cons = ConsState.finished := by
  refine ⟨?_, ?_, by decide, (step_iff _ _).mpr (by decide), by decide⟩
  · exact reachable_step_elim (by decide)
  · exact reachable_step_elim (by decide)

/-- Claim C4 witness: the stop rendezvous at trace step 101 happens with
all 101 words printed. -/
theorem c4_witness :
    (run 101).output.length = 101 ∧ (run 102).cons = ConsState.finished :=
  c4_stop_once_after_101_receives.1 (run 101) (run 102) (run_reachable 101)
    ((step_iff _ _).mpr (by decide)) (by decide)

/-- Claim C5: in every reachable state the producer's cycle index
satisfies 0 ≤ i < len(words) = 3, and every successful send (a step that
prints one more line) advances the index by one modulo 3. -/
theorem c5_index_wraps_mod_three :
    (∀ s, Reachable s → ∀ i, s.prod = ProdState.running i →
       i < words.length ∧ words.length = 3) ∧
    (∀ s s', Reachable s → Step s s' → ∀ i, s.prod = ProdState.running i →
       s'.output.length = s.output.length + 1 →
       s'.prod = ProdState.running ((i + 1) % words.length)) := by
  constructor
  · intro s hs i hp
    exact ⟨reachable_index_bound s hs i hp, rfl⟩
  · intro s s' hs h i hp hlen
    have hi : i < words.length := reachable_index_bound s hs i hp
    cases h with
    | word i' k dc out w hk hw =>
        have hii : i' = i := by
          have := ProdState.running.injEq i' i ▸ hp
          simpa using hp
        subst hii
        simp [nextIndex_mod i' hi]
    | done i' dc out => simp at hlen
    | close c dc out => simp at hlen

/-- Claim C5 witness: the invariant at the initial state, and the first
send advances the index from 0 to 1 = (0 + 1) mod 3. -/
theorem c5_witness :
    (0 < words.length ∧ words.length = 3) ∧
      (run 1).prod = ProdState.running ((0 + 1) % words.length) :=
  ⟨c5_index_wraps_mod_three.1 init Reachable.init 0 rfl,
   c5_index_wraps_mod_three.2 init (run 1) Reachable.init
     ((step_iff _ _).mpr (by decide)) 0 rfl (by decide)⟩

/-- Claim C6: the embedded program is closed (its semantics `run` takes
no input of any kind), its only external effect is the list of printed
lines: exactly 101 of them, each a single word of the cycle, and it
exits normally — the final trace state takes no further step and both
control points have returned. -/
theorem c6_console_output_and_normal_exit :
    (run 103).output = expectedOutput ∧
    (run 103).output.length = 101 ∧
    ((run 103).output.all fun l => words.contains l) = true ∧
    stepFn (run 103) = none ∧
    (run 103).prod = ProdState.stopped ∧
    (run 103).cons = ConsState.finished := by
  refine ⟨by decide, by decide, by decide, by decide, by decide, by decide⟩

/-- Claim C7: no fallible operation: in every reachable state the slice
index into `words` is in bounds; the done channel is closed only after
the producer has already returned, and is still open whenever the
producer is about to close it (so `close` never hits a closed channel)
and whenever the consumer is about to send on it (so no send on a
closed channel); the word channel is never closed at all (the semantics
has no closing transition for it), so no receive from a closed word
channel occurs. -/
theorem c7_no_fallible_operation :
    ∀ s, Reachable s →
      (∀ i, s.prod = ProdState.running i → i < words.length) ∧
      (s.prod = ProdState.closing → s.doneClosed = false) ∧
      (s.cons = ConsState.sendingDone → s.doneClosed = false) ∧
      (s.doneClosed = true → s.prod = ProdState.stopped) := by
  have h2 : ∀ s, Reachable s →
      (s.prod = ProdState.closing → s.doneClosed = false) ∧
      (s.cons = ConsState.sendingDone → s.doneClosed = false) ∧
      (s.doneClosed = true → s.prod = ProdState.stopped) :=
    reachable_elim (by decide)
  intro s hs
  exact ⟨fun i hp => reachable_index_bound s hs i hp, h2 s hs⟩

/-- Claim C7 witness: at trace state 1 the index 1 is in bounds, and at
trace state 101 (consumer about to send the stop signal) the done
channel is still open. -/
theorem c7_witness : (1 < words.length) ∧ (run 101).doneClosed = false :=
  ⟨(c7_no_fallible_operation (run 1) (run_reachable 1)).1 1 (by decide),
   (c7_no_fallible_operation (run 101) (run_reachable 101)).2.2.1 (by decide)⟩

/-- Claim C8: every transfer on the word channel is a synchronous
rendezvous: any step that prints a word is a single joint transition
requiring the producer at its select and the consumer at its receive,
and advancing both at once; and the producer's select has no priority
between its two cases — the word branch can be taken whenever the word
partner is ready (whatever the done channel's state) and the done
branch can be taken whenever the stop partner is ready (whatever the
cycle index), so when both partners were ready both branches would be
enabled, with no ordering between them. -/
theorem c8_rendezvous_and_unbiased_select :
    (∀ s s', Step s s' → s'.output ≠ s.output →
       ∃ i k w, s.prod = ProdState.running i ∧
         s.cons = ConsState.receiving k ∧ words[i]? = some w ∧
         s'.output = s.output ++ [w] ∧
         s'.prod = ProdState.running (nextIndex i) ∧
         s'.cons = consAfterRecv k) ∧
    (∀ i k dc out, k ≤ 100 → i < words.length →
       ∃ s', Step ⟨ProdState.running i, ConsState.receiving k, dc, out⟩ s') ∧
    (∀ i dc out,
       ∃ s', Step ⟨ProdState.running i, ConsState.sendingDone, dc, out⟩ s') := by
  refine ⟨?_, ?_, ?_⟩
  · intro s s' h hout
    cases h with
    | word i k dc out w hk hw =>
        exact ⟨i, k, w, rfl, rfl, hw, rfl, rfl, rfl⟩
    | done i dc out => exact absurd rfl hout
    | close c dc out => exact absurd rfl hout
  · intro i k dc out hk hi
    obtain ⟨w, hw⟩ : ∃ w, words[i]? = some w := by
      cases h : words[i]? with
      | some w => exact ⟨w, rfl⟩
      | none =>
          rw [List.getElem?_eq_none_iff] at h
          omega
    exact ⟨_, Step.word i k dc out w hk hw⟩
  · intro i dc out
    exact ⟨_, Step.done i dc out⟩

/-- Claim C8 witness: both select branches are enabled at concrete ready
states. -/
theorem c8_witness :
    (∃ s', Step ⟨ProdState.running 0, ConsState.receiving 0, false, []⟩ s') ∧
    (∃ s', Step ⟨ProdState.running 2, ConsState.sendingDone, false, []⟩ s') :=
  ⟨c8_rendezvous_and_unbiased_select.2.1 0 0 false [] (by omega) (by decide),
   c8_rendezvous_and_unbiased_select.2.2 2 false []⟩

/-- Claim C9: the printed output is deterministic: the step relation
itself is deterministic (the sequential consumer is never ready on both
channels at once, so the select nondeterminism never materialises), and
any two completed executions, under any two schedulings, end with the
identical list of printed lines. -/
theorem c9_deterministic_output :
    (∀ s t u, Step s t → Step s u → t = u) ∧
    (∀ s₁ s₂, Reachable s₁ → Reachable s₂ →
       stepFn s₁ = none → stepFn s₂ = none → s₁.output = s₂.output) := by
  refine ⟨step_deterministic, ?_⟩
  intro s₁ s₂ h₁ h₂ ht₁ ht₂
  rw [terminal_is_halt s₁ h₁ ht₁, terminal_is_halt s₂ h₂ ht₂]

/-- Claim C9 witness: two completed runs agree on the output. -/
theorem c9_witness : (run 103).output = (run 103).output :=
  c9_deterministic_output.2 (run 103) (run 103)
    (run_reachable 103) (run_reachable 103) (by decide) (by decide)

/-- Claim C10: the producer never terminates spontaneously: in any step,
a producer at its loop head either stays at its loop head (word branch)
or leaves it precisely because the consumer's stop signal is being
delivered (done branch); so with no stop signal the producer remains in
its loop forever.  Moreover the boolean value carried by the stop
signal is never inspected: the semantics is literally the same function
whatever value the consumer sends. -/
theorem c10_exit_only_by_stop_signal :
    (∀ s s', Step s s' → ∀ i, s.prod = ProdState.running i →
       s'.prod = ProdState.running (nextIndex i) ∨
         (s.cons = ConsState.sendingDone ∧ s'.prod = ProdState.closing)) ∧
    (∀ v : Bool, stepFnV v = stepFnV true) := by
  constructor
  · intro s s' h i hp
    cases h with
    | word i' k dc out w hk hw =>
        left
        have : i' = i := by simpa using hp
        rw [this]
    | done i' dc out => exact Or.inr ⟨rfl, rfl⟩
    | close c dc out => exact ProdState.noConfusion hp
  · intro v
    rfl

/-- Claim C10 witness: at the first step the producer stays running, and
the semantics with the value false coincides with the actual one. -/
theorem c10_witness :
    ((run 1).prod = ProdState.running (nextIndex 0) ∨
      (init.cons = ConsState.sendingDone ∧ (run 1).prod = ProdState.closing)) ∧
    stepFnV false = stepFnV true :=
  ⟨c10_exit_only_by_stop_signal.1 init (run 1)
     ((step_iff _ _).mpr (by decide)) 0 rfl,
   c10_exit_only_by_stop_signal.2 false⟩

end Gofums
